import Mathlib

/-!
# FlexFlow PCG core: shallow embedding and verification

This file embeds, in Lean 4, the parts of the FlexFlow parallel-computation-
graph core that the specification's claims are about:

* the operator-kind enumeration and the parameter-extraction dispatch
  (`get_op_parameters`, from `operator_params.cc`);
* the adjacency multigraph edge query (`utils/adjacency_graph.cc`);
* the lifting of `OP_INPUT` layers (`FFModel::create_operator_from_layer`);
* the `Aggregate` operator constructor and its cost measurement
  (`aggregate.cc`);
* the region mapper's restriction partitions (`FFModel::map_tensor_with_dim2`
  and `FFModel::create_aliased_partition_with_dim2`);
* the MCMC search driver (`FFModel::mcmc_optimize`, `FFModel::rewrite`);
* the vertical fusion pass (`FFModel::apply_fusion`).

Machine floats are modelled as rationals (the claims under study only involve
order comparisons and min-tracking, which agree with the rational model in the
absence of NaNs); randomness (`std::rand`, `randf`) is modelled by passing the
drawn values as explicit oracle arguments, so that every theorem quantifies
over all possible draws; C `assert` failures are modelled as `Option.none` /
dedicated failure results.
-/

namespace FlexFlow

/-- Operator kind tags (the `OperatorType` enumeration), covering every case
named in `get_op_parameters` plus the kinds that fall through to its
`default` branch. -/
inductive OpType where
  | OP_LINEAR | OP_CONV2D
  | OP_EW_ADD | OP_EW_SUB | OP_EW_MUL | OP_EW_DIV | OP_EW_MAX | OP_EW_MIN
  | OP_EXP | OP_SIN | OP_COS
  | OP_SCALAR_MULTIPLY | OP_SCALAR_ADD | OP_SCALAR_SUB | OP_SCALAR_TRUE_DIV
  | OP_RELU | OP_SIGMOID | OP_TANH | OP_IDENTITY | OP_GELU | OP_ELU
  | OP_CONCAT | OP_POOL2D | OP_CAST | OP_DROPOUT | OP_EMBEDDING
  | OP_FLAT | OP_GATHER | OP_MULTIHEAD_ATTENTION | OP_LAYERNORM
  | OP_REDUCE_SUM | OP_RESHAPE | OP_SOFTMAX
  | OP_REPARTITION | OP_REPLICATE | OP_REDUCTION | OP_COMBINE
  | OP_FUSED_PARALLEL
  | OP_TRANSPOSE | OP_BATCHMATMUL | OP_SPLIT | OP_TOPK
  | OP_GROUP_BY | OP_AGGREGATE | OP_AGG_SPEC
  | OP_NOOP | OP_MEAN | OP_CACHE | OP_REVERSE | OP_BATCHNORM
  | OP_INPUT | OP_WEIGHT | OP_FUSED
  deriving DecidableEq, Repr, Fintype

/-- The per-kind attribute records returned by `get_op_parameters`.  The
bodies of the individual `get_params()` methods live outside the sources
under study, so each record is opaque here; the claims about
`get_op_parameters` only concern which kinds yield a record at all. -/
inductive OperatorParameters where
  | LinearParams | Conv2DParams | ElementBinaryParams | ElementUnaryParams
  | ConcatParams | Pool2DParams | CastParams | DropoutParams
  | EmbeddingParams | FlatParams | GatherParams | MultiHeadAttentionParams
  | LayerNormParams | ReduceParams | ReshapeParams | SoftmaxParams
  | RepartitionParams | ReplicateParams | ReductionParams | CombineParams
  | FusedParallelOpParams | TransposeParams | BatchMatmulParams
  | SplitParams | TopKParams | GroupByParams
  | AggregateParams | AggregateSpecParams
  deriving DecidableEq, Repr

open OpType OperatorParameters

/-- Embedding of `get_op_parameters` (`operator_params.cc`): dispatch on the
operator kind, returning the kind-specific parameter record, or `none` for
every kind outside the dispatch list (the `default:` branch, which covers in
particular the commented-out `noop`, `mean`, `cache`, `reverse`,
`batchnorm` cases). -/
def get_op_parameters : OpType → Option OperatorParameters
  | OP_LINEAR => some LinearParams
  | OP_CONV2D => some Conv2DParams
  | OP_EW_ADD => some ElementBinaryParams
  | OP_EW_SUB => some ElementBinaryParams
  | OP_EW_MUL => some ElementBinaryParams
  | OP_EW_DIV => some ElementBinaryParams
  | OP_EW_MAX => some ElementBinaryParams
  | OP_EW_MIN => some ElementBinaryParams
  | OP_EXP => some ElementUnaryParams
  | OP_SIN => some ElementUnaryParams
  | OP_COS => some ElementUnaryParams
  | OP_SCALAR_MULTIPLY => some ElementUnaryParams
  | OP_SCALAR_ADD => some ElementUnaryParams
  | OP_SCALAR_SUB => some ElementUnaryParams
  | OP_SCALAR_TRUE_DIV => some ElementUnaryParams
  | OP_RELU => some ElementUnaryParams
  | OP_SIGMOID => some ElementUnaryParams
  | OP_TANH => some ElementUnaryParams
  | OP_IDENTITY => some ElementUnaryParams
  | OP_GELU => some ElementUnaryParams
  | OP_ELU => some ElementUnaryParams
  | OP_CONCAT => some ConcatParams
  | OP_POOL2D => some Pool2DParams
  | OP_CAST => some CastParams
  | OP_DROPOUT => some DropoutParams
  | OP_EMBEDDING => some EmbeddingParams
  | OP_FLAT => some FlatParams
  | OP_GATHER => some GatherParams
  | OP_MULTIHEAD_ATTENTION => some MultiHeadAttentionParams
  | OP_LAYERNORM => some LayerNormParams
  | OP_REDUCE_SUM => some ReduceParams
  | OP_RESHAPE => some ReshapeParams
  | OP_SOFTMAX => some SoftmaxParams
  | OP_REPARTITION => some RepartitionParams
  | OP_REPLICATE => some ReplicateParams
  | OP_REDUCTION => some ReductionParams
  | OP_COMBINE => some CombineParams
  | OP_FUSED_PARALLEL => some FusedParallelOpParams
  | OP_TRANSPOSE => some TransposeParams
  | OP_BATCHMATMUL => some BatchMatmulParams
  | OP_SPLIT => some SplitParams
  | OP_TOPK => some TopKParams
  | OP_GROUP_BY => some GroupByParams
  | OP_AGGREGATE => some AggregateParams
  | OP_AGG_SPEC => some AggregateSpecParams
  | _ => none

/-- The kinds appearing as explicit (non-commented) cases of the
`get_op_parameters` switch. -/
def opDispatchList : List OpType :=
  [OP_LINEAR, OP_CONV2D,
   OP_EW_ADD, OP_EW_SUB, OP_EW_MUL, OP_EW_DIV, OP_EW_MAX, OP_EW_MIN,
   OP_EXP, OP_SIN, OP_COS,
   OP_SCALAR_MULTIPLY, OP_SCALAR_ADD, OP_SCALAR_SUB, OP_SCALAR_TRUE_DIV,
   OP_RELU, OP_SIGMOID, OP_TANH, OP_IDENTITY, OP_GELU, OP_ELU,
   OP_CONCAT, OP_POOL2D, OP_CAST, OP_DROPOUT, OP_EMBEDDING,
   OP_FLAT, OP_GATHER, OP_MULTIHEAD_ATTENTION, OP_LAYERNORM,
   OP_REDUCE_SUM, OP_RESHAPE, OP_SOFTMAX,
   OP_REPARTITION, OP_REPLICATE, OP_REDUCTION, OP_COMBINE,
   OP_FUSED_PARALLEL,
   OP_TRANSPOSE, OP_BATCHMATMUL, OP_SPLIT, OP_TOPK,
   OP_GROUP_BY, OP_AGGREGATE, OP_AGG_SPEC]

/-! ## Adjacency multigraph (`utils/adjacency_graph.cc`) -/

/-- An edge of the adjacency multigraph: source node, destination node, and
the two port indices.  Nodes are identified by their index. -/
structure Edge where
  src : ℕ
  dst : ℕ
  srcIdx : ℕ
  dstIdx : ℕ
  deriving DecidableEq, Repr

/-- The nested adjacency storage
`map src ↦ (map dst ↦ (map srcIdx ↦ set of dstIdx))`, modelled as nested
association lists. -/
def Adjacency : Type :=
  List (ℕ × List (ℕ × List (ℕ × List ℕ)))

/-- An edge query: for each of the four fields, either no constraint
(`none`, the `tl::nullopt` case) or a finite set of admissible values. -/
structure EdgeQuery where
  srcs : Option (List ℕ)
  dsts : Option (List ℕ)
  srcIdxs : Option (List ℕ)
  dstIdxs : Option (List ℕ)

/-- One filter of `query_edges`: absent (`!has_value()`) accepts everything,
present accepts exactly its members. -/
def queryPasses (f : Option (List ℕ)) (x : ℕ) : Bool :=
  match f with
  | none => true
  | some l => l.contains x

/-- Embedding of `AdjacencyMultiDiGraph::query_edges`: the four nested loops
over the adjacency storage, each level guarded by the corresponding optional
filter. -/
def query_edges (adj : Adjacency) (q : EdgeQuery) : List Edge :=
  adj.flatMap fun kv =>
    if queryPasses q.srcs kv.1 then
      kv.2.flatMap fun kv2 =>
        if queryPasses q.dsts kv2.1 then
          kv2.2.flatMap fun kv3 =>
            if queryPasses q.srcIdxs kv3.1 then
              kv3.2.flatMap fun di =>
                if queryPasses q.dstIdxs di then
                  [⟨kv.1, kv2.1, kv3.1, di⟩]
                else []
            else []
        else []
    else []

/-- The set of all edges stored in the adjacency structure (the nested
flattening, with no filters). -/
def storedEdges (adj : Adjacency) : List Edge :=
  adj.flatMap fun kv =>
    kv.2.flatMap fun kv2 =>
      kv2.2.flatMap fun kv3 =>
        kv3.2.map fun di => ⟨kv.1, kv2.1, kv3.1, di⟩

/-! ## Parallel dimensions and the `OP_INPUT` lifting
(`FFModel::create_operator_from_layer`, `model.cc`) -/

/-- A parallel dimension: logical extent, split degree, machine-view axis
(−1 when not split), and the replica marker (`ParallelDim`). -/
structure PDim where
  size : ℕ
  degree : ℕ
  parallelIdx : ℤ
  is_replica_dim : Bool
  deriving DecidableEq, Repr

instance : Inhabited PDim := ⟨⟨0, 1, -1, false⟩⟩

/-- The parallel dims built for an `OP_INPUT` layer: each logical dimension
is copied with degree 1 and `parallel_idx = −1`, and one replica dimension of
size 1 is appended at the tail. -/
def inputParallelDims (logicalDims : List ℕ) : List PDim :=
  (logicalDims.map fun s => ⟨s, 1, -1, false⟩) ++ [⟨1, 1, -1, true⟩]

/-- The `Repartition` parallel operator appended in only-data-parallel mode:
the dimension it splits and the split degree. -/
structure RepartitionOp where
  repartition_dim : ℕ
  repartition_degree : ℕ
  deriving DecidableEq, Repr

/-- The configuration fields read by the `OP_INPUT` branch of
`create_operator_from_layer`. -/
structure FFConfigRec where
  only_data_parallel : Bool
  numNodes : ℕ
  workersPerNode : ℕ

/-- Embedding of the `OP_INPUT` branch of `FFModel::create_operator_from_layer`:
returns the parallel dims of the created parallel tensor, and the
`Repartition` operator appended when `only_data_parallel` is set (over
dimension `num_dims − 1` with degree `numNodes * workersPerNode`). -/
def create_input_operator (cfg : FFConfigRec) (logicalDims : List ℕ) :
    List PDim × Option RepartitionOp :=
  (inputParallelDims logicalDims,
   if cfg.only_data_parallel then
     some ⟨logicalDims.length - 1, cfg.numNodes * cfg.workersPerNode⟩
   else none)

/-! ## The `Aggregate` operator (`aggregate.cc`) -/

/-- Data type tags of tensors. -/
inductive DataType where
  | DT_HALF | DT_FLOAT | DT_DOUBLE | DT_INT32 | DT_INT64
  deriving DecidableEq, Repr

/-- The output dims computed by the `Aggregate` constructor: the loop copies
`inputs[4]`'s dims for `i < num_dim − 1`, then positions `num_dim − 2` and
`num_dim − 1` are overwritten with `inputs[0]`'s (gate_preds') dims. -/
def aggregate_output_dims (gate_preds expert0 : List PDim) : List PDim :=
  (List.range expert0.length).map fun i =>
    if i = expert0.length - 1 then gate_preds.getD (expert0.length - 1) default
    else if i = expert0.length - 2 then
      gate_preds.getD (expert0.length - 2) default
    else expert0.getD i default

/-- The `assert`ed preconditions of the `Aggregate` constructor.  The bound
constants `AGGREGATE_MAX_N` / `AGGREGATE_MAX_K` / `AGGREGATE_MAX_BATCH_SIZE`
are `#define`s from a header outside the sources under study, so they are
passed as parameters. -/
def aggregateAsserts (maxN maxK maxB : ℕ) (inputs : List (List PDim))
    (n : ℕ) : Bool :=
  (inputs.length == n + 4) &&
  decide (n ≤ maxN) &&
  decide (((inputs.getD 0 []).getD 0 default).size ≤ maxK) &&
  decide (((inputs.getD 0 []).getD 1 default).size ≤ maxB) &&
  decide (0 < n) &&
  ((inputs.getD 0 []).length == 3) &&
  ((inputs.getD 1 []).length == 3) &&
  ((inputs.getD 2 []).length == 3) &&
  ((inputs.getD 3 []).length == 3) &&
  ((List.range 3).all fun i =>
    ((inputs.getD 0 []).getD i default == (inputs.getD 1 []).getD i default) &&
    ((inputs.getD 0 []).getD i default ==
      (inputs.getD 2 []).getD i default)) &&
  ((inputs.getD 0 []).getD 1 default == (inputs.getD 3 []).getD 1 default) &&
  (((inputs.getD 3 []).getD 0 default).size == n) &&
  (((List.range n).drop 1).all fun i =>
    ((inputs.getD (i + 4) []).length == (inputs.getD 4 []).length) &&
    (((inputs.getD (i + 4) []).getD 0 default).size ==
      ((inputs.getD 4 []).getD 0 default).size))

/-- Embedding of the `Aggregate` constructor: when the asserted preconditions
hold, it produces its single output — `num_dim` parallel dims computed by
`aggregate_output_dims`, with data type `DT_FLOAT`; an assert failure is
modelled as `none`. -/
def aggregate_ctor (maxN maxK maxB : ℕ) (inputs : List (List PDim))
    (n : ℕ) : Option (List PDim × DataType) :=
  if aggregateAsserts maxN maxK maxB inputs n then
    some (aggregate_output_dims (inputs.getD 0 []) (inputs.getD 4 []),
          DataType.DT_FLOAT)
  else none

/-- Scenario S2: gate_preds dims `[k=4, batch=8, r=1]`. -/
def s2_gate_preds : List PDim :=
  [⟨4, 1, -1, false⟩, ⟨8, 1, -1, false⟩, ⟨1, 1, -1, true⟩]

/-- Scenario S2: full gate predictions dims `[n=3, batch=8, r=1]`. -/
def s2_full_gate : List PDim :=
  [⟨3, 1, -1, false⟩, ⟨8, 1, -1, false⟩, ⟨1, 1, -1, true⟩]

/-- Scenario S2: expert dims `[out=16, rows=32, r=1]`. -/
def s2_expert : List PDim :=
  [⟨16, 1, -1, false⟩, ⟨32, 1, -1, false⟩, ⟨1, 1, -1, true⟩]

/-- Scenario S2: the full input list (gate_preds, gate_assign,
true_gate_assign, full_gate, three experts), `n = 3`. -/
def s2_inputs : List (List PDim) :=
  [s2_gate_preds, s2_gate_preds, s2_gate_preds, s2_full_gate,
   s2_expert, s2_expert, s2_expert]

/-! ## `Aggregate::measure_operator_cost` (`aggregate.cc`) -/

/-- The collaborator results that `measure_operator_cost` consumes: `n`, the
success of each `get_sub_tensor` call (indexed by the slot of `this->inputs`
it is called on; the output tensor separately), whether the `k`-th
`sim->allocate` call returns `NULL`, and the forward time returned by
`inner_measure_operator_cost`. -/
structure MeasureOracle where
  n : ℕ
  subInputOk : ℕ → Bool
  subOutputOk : Bool
  allocNull : ℕ → Bool
  fwdTime : ℚ

/-- The out-of-memory flag accumulated by `measure_operator_cost`: the
`numInputs` input buffers, then the assign, pred and output buffers, in
allocation order. -/
def measureOOM (o : MeasureOracle) : Bool :=
  ((List.range (o.n + 4)).any fun k => o.allocNull k) ||
    o.allocNull (o.n + 4) || o.allocNull (o.n + 5) || o.allocNull (o.n + 6)

/-- Embedding of `Aggregate::measure_operator_cost`: `none` models a `false`
return (a failed `get_sub_tensor`); `some (fwd, bwd)` models a `true` return
reporting the two times.  The sub-tensor loop reads `inputs[i + 4]` for
`i < numInputs = n + 4`, exactly as the source does. -/
def aggregate_measure_operator_cost (maxTime : ℚ) (o : MeasureOracle) :
    Option (ℚ × ℚ) :=
  let numInputs := o.n + 4
  if (List.range numInputs).all (fun i => o.subInputOk (i + 4)) then
    if o.subInputOk 0 then
      if o.subInputOk 1 then
        if o.subOutputOk then
          if measureOOM o then some (maxTime, maxTime)
          else some (o.fwdTime, 0)
        else none
      else none
    else none
  else none

/-! ## The MCMC search driver (`FFModel::mcmc_optimize`, `FFModel::rewrite`,
`model.cc`)

Runtimes (C++ `float`) are modelled as `ℚ`; the random draws of `rewrite`
and of the acceptance test are oracle arguments, so every statement below
quantifies over all possible draws.  The acceptance comparison
`rn < exp(−α·diff)` only influences `current`, never `best`, so it is
modelled as an arbitrary per-iteration boolean oracle. -/

/-- The local state of the `mcmc_optimize` loop. -/
structure MState (α : Type) where
  best : α
  bestRt : ℚ
  current : α
  currentRt : ℚ
  lastReset : ℕ

/-- `reset_span = budget / 100`, clamped into `[1, 1000]`, exactly as the
two fix-ups at the top of `mcmc_optimize` compute it. -/
def resetSpanOf (budget : ℕ) : ℕ :=
  let rs := budget / 100
  let rs1 := if rs = 0 then 1 else rs
  if rs1 > 1000 then 1000 else rs1

/-- The reset at the top of each iteration: when
`iter − last_reset_iter ≥ reset_span`, `current` is reset to `best`. -/
def mcmcReset {α : Type} (resetSpan iter : ℕ) (s : MState α) : MState α :=
  if iter - s.lastReset ≥ resetSpan then
    { s with current := s.best, currentRt := s.bestRt, lastReset := iter }
  else s

/-- The proposal generated at iteration `iter`: `rewrite` applied to the
(possibly reset) current assignment, with `rewriteOr` the oracle giving the
outcome of the random rewrite at that iteration. -/
def mcmcProposal {α : Type} (rewriteOr : ℕ → α → α) (resetSpan iter : ℕ)
    (s : MState α) : α :=
  rewriteOr iter (mcmcReset resetSpan iter s).current

/-- One iteration of the `mcmc_optimize` loop body. -/
def mcmcStep {α : Type} (simulate : α → ℚ) (rewriteOr : ℕ → α → α)
    (accept : ℕ → Bool) (resetSpan iter : ℕ) (s : MState α) : MState α :=
  let s1 := mcmcReset resetSpan iter s
  let next := rewriteOr iter s1.current
  let nextRt := simulate next
  let s2 := if nextRt < s1.bestRt then
      { s1 with best := next, bestRt := nextRt }
    else s1
  if nextRt < s2.currentRt then
    { s2 with current := next, currentRt := nextRt }
  else if accept iter then
    { s2 with current := next, currentRt := nextRt }
  else s2

/-- The initial state: both `best` and `current` are the incoming
assignment, costed once. -/
def mcmcInit {α : Type} (simulate : α → ℚ) (b0 : α) : MState α :=
  ⟨b0, simulate b0, b0, simulate b0, 0⟩

/-- The state after `k` iterations of the loop (iterations are numbered from
0, as in the `for` loop of `mcmc_optimize`). -/
def mcmcIter {α : Type} (simulate : α → ℚ) (rewriteOr : ℕ → α → α)
    (accept : ℕ → Bool) (resetSpan : ℕ) (b0 : α) : ℕ → MState α
  | 0 => mcmcInit simulate b0
  | k + 1 => mcmcStep simulate rewriteOr accept resetSpan k
      (mcmcIter simulate rewriteOr accept resetSpan b0 k)

/-- Embedding of `FFModel::mcmc_optimize`: run iterations `0..budget`
inclusive starting from the given assignment. -/
def mcmc_optimize {α : Type} (simulate : α → ℚ) (rewriteOr : ℕ → α → α)
    (accept : ℕ → Bool) (budget : ℕ) (b0 : α) : MState α :=
  mcmcIter simulate rewriteOr accept (resetSpanOf budget) b0 (budget + 1)

/-- The simulated costs of the proposals generated during the first `k`
iterations, in order. -/
def mcmcProposalCosts {α : Type} (simulate : α → ℚ) (rewriteOr : ℕ → α → α)
    (accept : ℕ → Bool) (resetSpan : ℕ) (b0 : α) : ℕ → List ℚ
  | 0 => []
  | k + 1 => mcmcProposalCosts simulate rewriteOr accept resetSpan b0 k ++
      [simulate (mcmcProposal rewriteOr resetSpan k
        (mcmcIter simulate rewriteOr accept resetSpan b0 k))]

/-! ## `FFModel::rewrite`, default (non-propagation) path (`model.cc`)

On the default path (`use_propagation = false`) the propagate chance is
`0.0f`, so `randf() < 0.0f` is false and the else branch always runs:
`opId = std::rand() % operators.size()`; if `opId` is the last position the
function returns with `next = current` untouched, otherwise exactly the
drawn operator's entry is overwritten with a fresh random config.
Assignments are modelled as functions from operator position to config; `r`
is the raw `std::rand()` draw and `fresh` the oracle for
`get_random_parallel_config`. -/

def ff_rewrite_default {β : Type} (n : ℕ) (current : ℕ → β) (r : ℕ)
    (fresh : β) : ℕ → β :=
  if r % n = n - 1 then current
  else Function.update current (r % n) fresh

/-! ## The fusion pass (`FFModel::apply_fusion`, `model.cc`)

Operators are modelled by the fields `apply_fusion` reads: an identity (the
C++ object address, here a numeric id), the kind tag, the result of
`has_inplace_output()`, and the input/output parallel tensors.  Tensors
carry the fields compared by the pass: the owning operator, the region
handle, and the machine view of the tensor.  The `FusedOp` constructor and
`FusedOp::add_operator` live outside the sources under study, so the pass
is parametrized by them as oracles (`mkFused`, `addOp`); a C `assert`
failure during the rebuild is the `abort` result. -/

/-- The parallel-tensor fields read by `apply_fusion`. -/
structure FTensor where
  owner : Option ℕ
  region : ℕ
  machineView : ℕ
  deriving DecidableEq, Repr

instance : Inhabited FTensor := ⟨⟨none, 0, 0⟩⟩

/-- Modelled from the spec: `Op::is_parallel_op` is declared outside the
sources under study; the spec's glossary defines a parallel operator as any
of `repartition`, `replicate`, `reduction`, `combine`, `fused_parallel`. -/
def isParallelOpType : OpType → Bool
  | .OP_REPARTITION => true
  | .OP_REPLICATE => true
  | .OP_REDUCTION => true
  | .OP_COMBINE => true
  | .OP_FUSED_PARALLEL => true
  | _ => false

/-- The operator fields read by `apply_fusion`. -/
structure Oper where
  id : ℕ
  opType : OpType
  hasInplaceOutput : Bool
  inputs : List FTensor
  outputs : List FTensor
  deriving DecidableEq, Repr

instance : Inhabited Oper := ⟨⟨0, .OP_NOOP, false, [], []⟩⟩

/-- `operators[k]->outputs[0]->machine_view`. -/
def opView (o : Oper) : ℕ :=
  (o.outputs.headD default).machineView

/-- The id of the operator at position `k`. -/
def opIdAt (ops : List Oper) (k : ℕ) : ℕ :=
  (ops.getD k default).id

/-- The result of one `apply_fusion` call: `abort` models a failed
C `assert` during the rebuild, `nofuse` the `return false` path, `fused r`
the `return true` path with rebuilt operator list `r`. -/
inductive FusionResult where
  | abort
  | nofuse
  | fused (newOps : List Oper)
  deriving DecidableEq, Repr

/-- The input-rewrite of the rebuild loop: an input owned by `operators[l]`
or `operators[i]` is replaced by the unique fused output with the same
region handle (the `found` loop, whose asserts demand exactly one match);
any other input is kept. -/
def rewireTensor (lid iid : ℕ) (fouts : List FTensor) (t : FTensor) :
    Option FTensor :=
  if t.owner = some lid ∨ t.owner = some iid then
    match fouts.filter (fun o => o.region == t.region) with
    | [o] => some o
    | _ => none
  else some t

/-- `rewireTensor` over all inputs of one operator. -/
def rewireInputs (lid iid : ℕ) (fouts : List FTensor) :
    List FTensor → Option (List FTensor)
  | [] => some []
  | t :: ts =>
    match rewireTensor lid iid fouts t, rewireInputs lid iid fouts ts with
    | some t2, some ts2 => some (t2 :: ts2)
    | _, _ => none

/-- Rewrite one downstream operator's inputs against the fused outputs. -/
def rewireOp (lid iid : ℕ) (fouts : List FTensor) (op : Oper) : Option Oper :=
  match rewireInputs lid iid fouts op.inputs with
  | some ins => some { op with inputs := ins }
  | none => none

/-- The rebuild loop over positions `j = i+1 .. n−1`: position `l` is
skipped (it was fused), every other operator has its inputs rewritten. -/
def rebuildTail (lid iid : ℕ) (fused : Oper) (l : ℕ) :
    ℕ → List Oper → Option (List Oper)
  | _, [] => some []
  | j, op :: rest =>
    if j = l then rebuildTail lid iid fused l (j + 1) rest
    else
      match rewireOp lid iid fused.outputs op,
          rebuildTail lid iid fused l (j + 1) rest with
      | some op2, some tl => some (op2 :: tl)
      | _, _ => none

/-- Rebuild of the new operator list on a successful fusion of
`(operators[i], operators[l])`: keep `operators[0..i)`, substitute the
fused operator, then the rewired tail. -/
def rebuild (ops : List Oper) (i l : ℕ) (fused : Oper) :
    Option (List Oper) :=
  match rebuildTail (opIdAt ops l) (opIdAt ops i) fused l (i + 1)
      (ops.drop (i + 1)) with
  | some tl => some (ops.take i ++ fused :: tl)
  | none => none

/-- The checks on the seed candidate `operators[i]` before a `FusedOp` is
available: an existing fused op is reused as is; otherwise the candidate
must not have an in-place output, not be an input or weight operator, and
not be a parallel operator, and a fresh `FusedOp` is built from it.
`none` models a `continue`. -/
def seedFused (mkFused : Oper → Oper) (iop : Oper) : Option Oper :=
  if iop.opType = .OP_FUSED then some iop
  else if iop.hasInplaceOutput then none
  else if iop.opType = .OP_INPUT ∨ iop.opType = .OP_WEIGHT then none
  else if isParallelOpType iop.opType then none
  else some (mkFused iop)

/-- `start`: the largest position `i < l` owning one of `operators[l]`'s
inputs (0 when none). -/
def computeStart (ops : List Oper) (l : ℕ) : ℕ :=
  (ops.getD l default).inputs.foldl
    (fun start t =>
      (List.range l).foldl
        (fun s i => if t.owner = some (opIdAt ops i) ∧ i > s then i else s)
        start)
    0

/-- The inner loop over seed candidates `i ∈ [start, l)`: machine views must
match; a failing seed check or a failing `add_operator` means `continue`; on
an accepted `add_operator` the list is rebuilt (an assert failure there
aborts). -/
def tryCandidates (mkFused : Oper → Oper) (addOp : Oper → Oper → Option Oper)
    (ops : List Oper) (lop : Oper) (l : ℕ) : List ℕ → FusionResult
  | [] => .nofuse
  | i :: rest =>
    if opView (ops.getD i default) = opView lop then
      match seedFused mkFused (ops.getD i default) with
      | none => tryCandidates mkFused addOp ops lop l rest
      | some seed =>
        match addOp seed lop with
        | none => tryCandidates mkFused addOp ops lop l rest
        | some fusedOp =>
          match rebuild ops i l fusedOp with
          | some r => .fused r
          | none => .abort
    else tryCandidates mkFused addOp ops lop l rest

/-- The outer loop over candidates `l ∈ [1, n−1)`: input, weight and
parallel operators are skipped. -/
def tryPositions (mkFused : Oper → Oper) (addOp : Oper → Oper → Option Oper)
    (ops : List Oper) : List ℕ → FusionResult
  | [] => .nofuse
  | l :: rest =>
    if (ops.getD l default).opType = .OP_INPUT ∨
        (ops.getD l default).opType = .OP_WEIGHT then
      tryPositions mkFused addOp ops rest
    else if isParallelOpType (ops.getD l default).opType then
      tryPositions mkFused addOp ops rest
    else
      match tryCandidates mkFused addOp ops (ops.getD l default) l
          (List.range' (computeStart ops l) (l - computeStart ops l)) with
      | .nofuse => tryPositions mkFused addOp ops rest
      | r => r

/-- Embedding of `FFModel::apply_fusion`, parametrized by the external
`FusedOp` constructor and `FusedOp::add_operator`. -/
def apply_fusion (mkFused : Oper → Oper) (addOp : Oper → Oper → Option Oper)
    (ops : List Oper) : FusionResult :=
  tryPositions mkFused addOp ops (List.range' 1 (ops.length - 2))

/-- The per-operator rewiring relation the rebuilt list satisfies: the
downstream operator keeps its identity, kind, in-place flag and outputs;
it has the same number of inputs; each input owned by the fused pair
(`lid`, `iid`) has been rewritten to a fused output slot with the same
region handle, and every other input is untouched. -/
def rewiredOk (lid iid : ℕ) (fouts : List FTensor) (src dst : Oper) : Prop :=
  dst.id = src.id ∧ dst.opType = src.opType ∧
  dst.hasInplaceOutput = src.hasInplaceOutput ∧
  dst.outputs = src.outputs ∧
  dst.inputs.length = src.inputs.length ∧
  ∀ k, k < src.inputs.length →
    (((src.inputs.getD k default).owner = some lid ∨
      (src.inputs.getD k default).owner = some iid) →
      dst.inputs.getD k default ∈ fouts ∧
      (dst.inputs.getD k default).region =
        (src.inputs.getD k default).region) ∧
    (¬((src.inputs.getD k default).owner = some lid ∨
       (src.inputs.getD k default).owner = some iid) →
      dst.inputs.getD k default = src.inputs.getD k default)

/-- Modelled from the spec: the `FusedOp` constructor seeded at one
operator (`FusedOp::FusedOp`, outside the sources under study) — the fused
operator takes over the seed's tensors under the `OP_FUSED` kind tag. -/
def mkFusedModel (seed : Oper) : Oper :=
  { seed with opType := .OP_FUSED }

/-- Modelled from the spec: `FusedOp::add_operator` (outside the sources
under study) enforces bounded input/weight/output counts and consistent
source tags; this model accepts while the combined output count stays
within the bound, exposing both operators' outputs. -/
def addOpModel (maxOutputs : ℕ) (fused lop : Oper) : Option Oper :=
  if fused.outputs.length + lop.outputs.length ≤ maxOutputs then
    some { fused with outputs := fused.outputs ++ lop.outputs }
  else none

/-- A three-operator list whose middle operator has an in-place output and
is nevertheless fusable as `O[l]`: a linear op, a relu marked in-place
consuming it, and a downstream no-op consuming the relu. -/
def cexInplaceOps : List Oper :=
  [⟨0, .OP_LINEAR, false, [], [⟨some 0, 10, 7⟩]⟩,
   ⟨1, .OP_RELU, true, [⟨some 0, 10, 7⟩], [⟨some 1, 11, 7⟩]⟩,
   ⟨2, .OP_NOOP, false, [⟨some 1, 11, 7⟩], [⟨some 2, 12, 7⟩]⟩]

/-! ## The region mapper (`FFModel::map_tensor_with_dim2` and
`FFModel::create_aliased_partition_with_dim2`, `model.cc`)

The tensor rect is `[0, size_i)` in each of the `N` dimensions; the task
(color) space is `[0, axisDeg_j)` in each of `T` axes, built by
`get_or_create_task_is` from the split dimensions' degrees.  A restriction
partition assigns to each color `p` the subregion
`rect ∩ (transform · p + extent)`; this is the semantics of Legion's
`create_partition_by_restriction`, modelled set-theoretically below. -/

/-- `ext_hi + 1` for one dimension as the code computes it:
`ext_hi = (hi − lo + nparts) / nparts − 1` over the rect `[0, size)`. -/
def extPtsOf (size nparts : ℕ) : ℕ :=
  (size - 1 + nparts) / nparts - 1 + 1

/-- The extent (number of points) of a tile of one parallel dimension. -/
def extPts (d : PDim) : ℕ :=
  extPtsOf d.size d.degree

/-- One entry of the `transform` matrix of `map_tensor_with_dim2`:
`transform[i][j] = extent_i` iff `parallel_idx_i == j`, else 0. -/
def transformEntry (d : PDim) (j : ℕ) : ℕ :=
  if d.parallelIdx = (j : ℤ) then extPts d else 0

/-- The offset `(transform · p)_i` of the tile at color `p` in dim `i`. -/
def tileOffset (N T : ℕ) (dims : Fin N → PDim) (p : Fin T → ℕ)
    (i : Fin N) : ℕ :=
  ∑ j : Fin T, transformEntry (dims i) j.val * p j

/-- Membership in the task (color) space. -/
def inColorSpace (T : ℕ) (axisDeg : Fin T → ℕ) (p : Fin T → ℕ) : Prop :=
  ∀ j, p j < axisDeg j

/-- Membership of a tensor point in the subregion of color `p`: inside the
tensor rect, and inside the translated extent box. -/
def inSubregion (N T : ℕ) (dims : Fin N → PDim) (p : Fin T → ℕ)
    (x : Fin N → ℕ) : Prop :=
  (∀ i, x i < (dims i).size) ∧
  ∀ i, tileOffset N T dims p i ≤ x i ∧
    x i < tileOffset N T dims p i + extPts (dims i)

/-- The per-dimension extent of the aliased variant: the aliased dimension
is treated as having one part (`nparts = 1`). -/
def extPtsA (N : ℕ) (dims : Fin N → PDim) (a : ℕ) (i : Fin N) : ℕ :=
  extPtsOf (dims i).size (if i.val = a then 1 else (dims i).degree)

/-- One entry of the `transform` matrix of
`create_aliased_partition_with_dim2`: zero on the whole row of the aliased
dimension. -/
def transformEntryA (N : ℕ) (dims : Fin N → PDim) (a : ℕ) (i : Fin N)
    (j : ℕ) : ℕ :=
  if (dims i).parallelIdx = (j : ℤ) ∧ i.val ≠ a then extPtsA N dims a i
  else 0

/-- The tile offset of the aliased variant. -/
def tileOffsetA (N T : ℕ) (dims : Fin N → PDim) (a : ℕ) (p : Fin T → ℕ)
    (i : Fin N) : ℕ :=
  ∑ j : Fin T, transformEntryA N dims a i j.val * p j

/-- Membership of a tensor point in the aliased subregion of color `p`. -/
def inSubregionA (N T : ℕ) (dims : Fin N → PDim) (a : ℕ) (p : Fin T → ℕ)
    (x : Fin N → ℕ) : Prop :=
  (∀ i, x i < (dims i).size) ∧
  ∀ i, tileOffsetA N T dims a p i ≤ x i ∧
    x i < tileOffsetA N T dims a p i + extPtsA N dims a i

/-- Scenario S6 dims: `[(size=16, degree=4, idx=0), (size=8, degree=2,
idx=1)]`. -/
def s6_dims : Fin 2 → PDim :=
  ![⟨16, 4, 0, false⟩, ⟨8, 2, 1, false⟩]

/-- Scenario S6 task-space extents: a 4×2 task space. -/
def s6_axisDeg : Fin 2 → ℕ :=
  ![4, 2]

end FlexFlow

namespace FlexFlow

/-- C9: `get_op_parameters` returns `none` exactly on the kinds outside its
dispatch list — in particular on `noop`, `mean`, `cache`, `reverse` and
`batchnorm` — and returns a parameter record for every kind in the list. -/
theorem get_op_parameters_dispatch :
    (∀ t : OpType, (get_op_parameters t).isSome = true ↔ t ∈ opDispatchList) ∧
    get_op_parameters OpType.OP_NOOP = none ∧
    get_op_parameters OpType.OP_MEAN = none ∧
    get_op_parameters OpType.OP_CACHE = none ∧
    get_op_parameters OpType.OP_REVERSE = none ∧
    get_op_parameters OpType.OP_BATCHNORM = none := by
  refine ⟨?_, rfl, rfl, rfl, rfl, rfl⟩
  decide

/-- C10: `query_edges` returns exactly the stored edges passing every filter
present in the query (an absent filter accepts everything). -/
theorem query_edges_exact (adj : Adjacency) (q : EdgeQuery) (e : Edge) :
    e ∈ query_edges adj q ↔
      e ∈ storedEdges adj ∧
      queryPasses q.srcs e.src = true ∧
      queryPasses q.dsts e.dst = true ∧
      queryPasses q.srcIdxs e.srcIdx = true ∧
      queryPasses q.dstIdxs e.dstIdx = true := by
  unfold query_edges storedEdges
  constructor
  · intro h
    simp only [List.mem_flatMap] at h
    obtain ⟨kv, hkv, h⟩ := h
    split at h
    case isFalse => simp at h
    case isTrue h1 =>
    simp only [List.mem_flatMap] at h
    obtain ⟨kv2, hkv2, h⟩ := h
    split at h
    case isFalse => simp at h
    case isTrue h2 =>
    simp only [List.mem_flatMap] at h
    obtain ⟨kv3, hkv3, h⟩ := h
    split at h
    case isFalse => simp at h
    case isTrue h3 =>
    simp only [List.mem_flatMap] at h
    obtain ⟨di, hdi, h⟩ := h
    split at h
    case isFalse => simp at h
    case isTrue h4 =>
    simp only [List.mem_singleton] at h
    subst h
    refine ⟨?_, h1, h2, h3, h4⟩
    simp only [List.mem_flatMap, List.mem_map]
    exact ⟨kv, hkv, kv2, hkv2, kv3, hkv3, di, hdi, rfl⟩
  · rintro ⟨hmem, h1, h2, h3, h4⟩
    simp only [List.mem_flatMap, List.mem_map] at hmem
    obtain ⟨kv, hkv, kv2, hkv2, kv3, hkv3, di, hdi, he⟩ := hmem
    subst he
    simp only [List.mem_flatMap]
    refine ⟨kv, hkv, ?_⟩
    rw [if_pos h1]
    simp only [List.mem_flatMap]
    refine ⟨kv2, hkv2, ?_⟩
    rw [if_pos h2]
    simp only [List.mem_flatMap]
    refine ⟨kv3, hkv3, ?_⟩
    rw [if_pos h3]
    simp only [List.mem_flatMap]
    refine ⟨di, hdi, ?_⟩
    rw [if_pos h4]
    exact List.mem_singleton_self _

/-- C6: for an `OP_INPUT` layer with an `N`-dimensional logical tensor, the
lifter builds `N + 1` parallel dims — the first `N` copying the logical
sizes with degree 1 and `parallel_idx = −1`, the tail being a replica dim of
size 1 — and in only-data-parallel mode additionally emits a `Repartition`
over dimension `N − 1` with degree `numNodes * workersPerNode`. -/
theorem input_lift_shape (cfg : FFConfigRec) (logicalDims : List ℕ) :
    (create_input_operator cfg logicalDims).1.length = logicalDims.length + 1 ∧
    (∀ i, i < logicalDims.length →
      (create_input_operator cfg logicalDims).1.getD i default =
        ⟨logicalDims.getD i 0, 1, -1, false⟩) ∧
    (create_input_operator cfg logicalDims).1.getD logicalDims.length default =
      ⟨1, 1, -1, true⟩ ∧
    (cfg.only_data_parallel = true →
      (create_input_operator cfg logicalDims).2 =
        some ⟨logicalDims.length - 1, cfg.numNodes * cfg.workersPerNode⟩) ∧
    (cfg.only_data_parallel = false →
      (create_input_operator cfg logicalDims).2 = none) := by
  refine ⟨?_, ?_, ?_, ?_, ?_⟩
  · simp [create_input_operator, inputParallelDims]
  · intro i hi
    simp only [create_input_operator, inputParallelDims]
    rw [List.getD_eq_getElem?_getD, List.getElem?_append_left (by simpa using hi)]
    rw [List.getElem?_map]
    rcases List.getElem?_eq_getElem (l := logicalDims) (by simpa using hi) with h
    rw [h]
    simp [List.getD_eq_getElem?_getD, List.getElem?_eq_getElem (l := logicalDims) hi]
  · simp only [create_input_operator, inputParallelDims]
    rw [List.getD_eq_getElem?_getD, List.getElem?_append_right (by simp)]
    simp
  · intro h
    simp [create_input_operator, h]
  · intro h
    simp [create_input_operator, h]

/-- Witness for `input_lift_shape`: the concrete instantiation at a
2-dimensional input `[4, 3]` on a 2×2 machine in only-data-parallel mode. -/
theorem input_lift_shape_witness :
    (create_input_operator ⟨true, 2, 2⟩ [4, 3]).1.length = 2 + 1 ∧
    (create_input_operator ⟨true, 2, 2⟩ [4, 3]).1.getD 0 default =
      ⟨4, 1, -1, false⟩ ∧
    (create_input_operator ⟨true, 2, 2⟩ [4, 3]).1.getD 2 default =
      ⟨1, 1, -1, true⟩ ∧
    (create_input_operator ⟨true, 2, 2⟩ [4, 3]).2 = some ⟨1, 4⟩ := by
  obtain ⟨h1, h2, h3, h4, -⟩ := input_lift_shape ⟨true, 2, 2⟩ [4, 3]
  exact ⟨h1, h2 0 (by decide), h3, h4 rfl⟩

/-- `getD` of a map over `List.range`. -/
theorem getD_range_map {α : Type} [Inhabited α] (f : ℕ → α) (nd i : ℕ)
    (h : i < nd) : ((List.range nd).map f).getD i default = f i := by
  rw [List.getD_eq_getElem?_getD, List.getElem?_map, List.getElem?_range h]
  rfl

/-- C7: a successfully constructed `Aggregate` has one output of `num_dim`
dims, equal to the first expert's dims below `num_dim − 2` and to
gate_preds' dims on the last two positions, with data type float; scenario
S2 yields output dims `[out=16, batch=8, r=1]`. -/
theorem aggregate_output_shape (maxN maxK maxB : ℕ)
    (inputs : List (List PDim)) (n : ℕ) (out : List PDim × DataType)
    (hctor : aggregate_ctor maxN maxK maxB inputs n = some out)
    (hnd : 2 ≤ (inputs.getD 4 []).length) :
    out.2 = DataType.DT_FLOAT ∧
    out.1.length = (inputs.getD 4 []).length ∧
    (∀ i, i < (inputs.getD 4 []).length - 2 →
      out.1.getD i default = (inputs.getD 4 []).getD i default) ∧
    out.1.getD ((inputs.getD 4 []).length - 2) default =
      (inputs.getD 0 []).getD ((inputs.getD 4 []).length - 2) default ∧
    out.1.getD ((inputs.getD 4 []).length - 1) default =
      (inputs.getD 0 []).getD ((inputs.getD 4 []).length - 1) default ∧
    aggregate_ctor 64 64 64 s2_inputs 3 =
      some ([⟨16, 1, -1, false⟩, ⟨8, 1, -1, false⟩, ⟨1, 1, -1, true⟩],
            DataType.DT_FLOAT) := by
  unfold aggregate_ctor at hctor
  split at hctor
  case isFalse => exact absurd hctor (by simp)
  case isTrue hA =>
  have hout : out = (aggregate_output_dims (inputs.getD 0 [])
      (inputs.getD 4 []), DataType.DT_FLOAT) := by
    injection hctor with h
    exact h.symm
  subst hout
  refine ⟨rfl, ?_, ?_, ?_, ?_, by decide⟩
  · simp [aggregate_output_dims]
  · intro i hi
    unfold aggregate_output_dims
    rw [getD_range_map _ _ _ (by omega)]
    rw [if_neg (by omega), if_neg (by omega)]
  · unfold aggregate_output_dims
    rw [getD_range_map _ _ _ (by omega)]
    rw [if_neg (by omega), if_pos rfl]
  · unfold aggregate_output_dims
    rw [getD_range_map _ _ _ (by omega)]
    rw [if_pos rfl]

/-- Witness for `aggregate_output_shape`: scenario S2 instantiation. -/
theorem aggregate_output_shape_witness :
    aggregate_ctor 64 64 64 s2_inputs 3 =
      some ([⟨16, 1, -1, false⟩, ⟨8, 1, -1, false⟩, ⟨1, 1, -1, true⟩],
            DataType.DT_FLOAT) ∧
    ([(⟨16, 1, -1, false⟩ : PDim), ⟨8, 1, -1, false⟩,
      ⟨1, 1, -1, true⟩]).length = (s2_inputs.getD 4 []).length := by
  have hc : aggregate_ctor 64 64 64 s2_inputs 3 =
      some ([⟨16, 1, -1, false⟩, ⟨8, 1, -1, false⟩, ⟨1, 1, -1, true⟩],
            DataType.DT_FLOAT) := by decide
  have h := aggregate_output_shape 64 64 64 s2_inputs 3 _ hc (by decide)
  exact ⟨hc, h.2.1⟩

/-- C8: `Aggregate::measure_operator_cost` returns `true` whenever every
`get_sub_tensor` call succeeds; a `NULL` from any simulator allocation
yields forward and backward times both `MAXIMUM_TASK_RUN_TIME`, and
otherwise the backward time reported is 0. -/
theorem aggregate_measure_cost_spec (maxTime : ℚ) (o : MeasureOracle)
    (hin : ∀ i, i < o.n + 4 → o.subInputOk (i + 4) = true)
    (h0 : o.subInputOk 0 = true) (h1 : o.subInputOk 1 = true)
    (hout : o.subOutputOk = true) :
    (aggregate_measure_operator_cost maxTime o).isSome = true ∧
    (measureOOM o = true →
      aggregate_measure_operator_cost maxTime o = some (maxTime, maxTime)) ∧
    (measureOOM o = false →
      aggregate_measure_operator_cost maxTime o = some (o.fwdTime, 0)) := by
  have hall : ((List.range (o.n + 4)).all fun i => o.subInputOk (i + 4)) =
      true := by
    rw [List.all_eq_true]
    intro i hi
    exact hin i (List.mem_range.mp hi)
  unfold aggregate_measure_operator_cost
  simp only [hall, h0, h1, hout, if_true]
  rcases hM : measureOOM o with _ | _
  · simp [hM]
  · simp [hM]

/-- Witness for `aggregate_measure_cost_spec`: one expert, all sub-tensors
available, no allocation failure. -/
theorem aggregate_measure_cost_spec_witness :
    (aggregate_measure_operator_cost 100
      ⟨1, fun _ => true, true, fun _ => false, 5⟩).isSome = true ∧
    aggregate_measure_operator_cost 100
      ⟨1, fun _ => true, true, fun _ => false, 5⟩ = some (5, 0) := by
  have h := aggregate_measure_cost_spec 100
      ⟨1, fun _ => true, true, fun _ => false, 5⟩
      (fun i _ => rfl) rfl rfl rfl
  exact ⟨h.1, h.2.2 rfl⟩

/-- The reset step never touches the tracked best cost. -/
theorem mcmcReset_bestRt {α : Type} (rs it : ℕ) (s : MState α) :
    (mcmcReset rs it s).bestRt = s.bestRt := by
  unfold mcmcReset
  split <;> rfl

/-- One loop iteration updates the best cost to the minimum of the previous
best cost and the proposal's simulated cost. -/
theorem mcmcStep_bestRt {α : Type} (simulate : α → ℚ) (rewriteOr : ℕ → α → α)
    (accept : ℕ → Bool) (rs it : ℕ) (s : MState α) :
    (mcmcStep simulate rewriteOr accept rs it s).bestRt =
      min s.bestRt (simulate (mcmcProposal rewriteOr rs it s)) := by
  have hb : (mcmcReset rs it s).bestRt = s.bestRt := mcmcReset_bestRt rs it s
  simp only [mcmcStep, mcmcProposal]
  split_ifs with h1 h2 h3 <;>
    rw [hb] at * <;>
    first
      | exact (min_eq_right (le_of_lt h1)).symm
      | exact (min_eq_left (not_lt.mp h1)).symm

/-- The best cost after `k` iterations is the left fold of `min` over the
proposal costs, seeded with the initial assignment's cost. -/
theorem mcmcIter_bestRt_foldl {α : Type} (simulate : α → ℚ)
    (rewriteOr : ℕ → α → α) (accept : ℕ → Bool) (rs : ℕ) (b0 : α) :
    ∀ k, (mcmcIter simulate rewriteOr accept rs b0 k).bestRt =
      (mcmcProposalCosts simulate rewriteOr accept rs b0 k).foldl min
        (simulate b0) := by
  intro k
  induction k with
  | zero => rfl
  | succ k ih =>
    have hk : mcmcIter simulate rewriteOr accept rs b0 (k + 1) =
        mcmcStep simulate rewriteOr accept rs k
          (mcmcIter simulate rewriteOr accept rs b0 k) := rfl
    rw [hk, mcmcStep_bestRt, ih]
    simp [mcmcProposalCosts, List.foldl_append]

/-- C1: across the `budget + 1` iterations of `mcmc_optimize`, the tracked
best cost starts as the initial assignment's simulated cost, is
non-increasing, and after every iteration equals the minimum over the
initial cost and all proposal costs seen so far — for every possible draw of
the rewrite and acceptance oracles. -/
theorem mcmc_best_cost_evolution {α : Type} (simulate : α → ℚ)
    (rewriteOr : ℕ → α → α) (accept : ℕ → Bool) (budget : ℕ) (b0 : α) :
    (mcmcIter simulate rewriteOr accept (resetSpanOf budget) b0 0).bestRt =
      simulate b0 ∧
    (∀ k, (mcmcIter simulate rewriteOr accept (resetSpanOf budget) b0
        (k + 1)).bestRt ≤
      (mcmcIter simulate rewriteOr accept (resetSpanOf budget) b0 k).bestRt) ∧
    (∀ k, (mcmcIter simulate rewriteOr accept (resetSpanOf budget) b0
        k).bestRt =
      (mcmcProposalCosts simulate rewriteOr accept (resetSpanOf budget) b0
        k).foldl min (simulate b0)) ∧
    (mcmc_optimize simulate rewriteOr accept budget b0).bestRt =
      (mcmcProposalCosts simulate rewriteOr accept (resetSpanOf budget) b0
        (budget + 1)).foldl min (simulate b0) := by
  refine ⟨rfl, ?_, mcmcIter_bestRt_foldl _ _ _ _ _,
    mcmcIter_bestRt_foldl _ _ _ _ _ _⟩
  intro k
  have hk : mcmcIter simulate rewriteOr accept (resetSpanOf budget) b0
      (k + 1) =
      mcmcStep simulate rewriteOr accept (resetSpanOf budget) k
        (mcmcIter simulate rewriteOr accept (resetSpanOf budget) b0 k) := rfl
  rw [hk, mcmcStep_bestRt]
  exact min_le_left _ _

/-- C3 counterexample: on the default path the raw draw
`std::rand() % operators.size()` can be the terminal position, in which case
`rewrite` returns with no operator's config replaced — so it does not always
pick a non-terminal operator and replace its config.  Here `n = 2`,
`r = 1` draws the terminal operator, and the fresh config 5 appears
nowhere in the result. -/
theorem ff_rewrite_terminal_draw_counterexample :
    ff_rewrite_default 2 (fun _ => (0 : ℕ)) 1 5 0 = 0 ∧
    ff_rewrite_default 2 (fun _ => (0 : ℕ)) 1 5 1 = 0 ∧
    (0 : ℕ) ≠ 5 := by
  refine ⟨?_, ?_, by decide⟩ <;> rfl

/-- C3 (amended): on the default path, `rewrite` draws a uniformly random
position among all operators; if the terminal (last) position is drawn the
assignment is returned unchanged, otherwise exactly the drawn operator's
entry is replaced by the fresh random config; every other operator's entry
is unchanged and the terminal operator's config is never mutated. -/
theorem ff_rewrite_default_frame {β : Type} (n : ℕ) (current : ℕ → β)
    (r : ℕ) (fresh : β) :
    ff_rewrite_default n current r fresh (n - 1) = current (n - 1) ∧
    (∀ j, j ≠ r % n → ff_rewrite_default n current r fresh j = current j) ∧
    (r % n ≠ n - 1 → ff_rewrite_default n current r fresh (r % n) = fresh) := by
  unfold ff_rewrite_default
  by_cases h : r % n = n - 1
  · rw [if_pos h]
    exact ⟨rfl, fun j _ => rfl, fun hc => absurd h hc⟩
  · rw [if_neg h]
    refine ⟨Function.update_noteq (fun hc => h hc.symm) _ _, ?_, ?_⟩
    · intro j hj
      exact Function.update_noteq hj _ _
    · intro _
      exact Function.update_same _ _ _

/-- Characterization of a successful `rewireTensor`: an input owned by the
fused pair goes to a fused output slot with the same region; any other
input is untouched. -/
theorem rewireTensor_char (lid iid : ℕ) (fouts : List FTensor)
    (t t2 : FTensor) (h : rewireTensor lid iid fouts t = some t2) :
    ((t.owner = some lid ∨ t.owner = some iid) →
      t2 ∈ fouts ∧ t2.region = t.region) ∧
    (¬(t.owner = some lid ∨ t.owner = some iid) → t2 = t) := by
  unfold rewireTensor at h
  split at h
  case isTrue hown =>
    refine ⟨fun _ => ?_, fun hc => absurd hown hc⟩
    rcases hf : fouts.filter (fun o => o.region == t.region) with _ | ⟨o, rest⟩
    · rw [hf] at h
      exact absurd h (by simp)
    rcases rest with _ | ⟨o2, rest2⟩
    · rw [hf] at h
      have ho : o = t2 := by injection h
      subst ho
      have hmem : o ∈ fouts.filter (fun o => o.region == t.region) := by
        rw [hf]
        exact List.mem_singleton_self o
      have := List.mem_filter.mp hmem
      exact ⟨this.1, by simpa using this.2⟩
    · rw [hf] at h
      exact absurd h (by simp)
  case isFalse hown =>
    refine ⟨fun hc => absurd hc hown, fun _ => ?_⟩
    injection h with h
    exact h.symm

/-- Characterization of a successful `rewireInputs`: same length, pointwise
`rewireTensor`. -/
theorem rewireInputs_char (lid iid : ℕ) (fouts : List FTensor) :
    ∀ ts ts2, rewireInputs lid iid fouts ts = some ts2 →
      ts2.length = ts.length ∧
      ∀ k, k < ts.length →
        rewireTensor lid iid fouts (ts.getD k default) =
          some (ts2.getD k default) := by
  intro ts
  induction ts with
  | nil =>
    intro ts2 h
    unfold rewireInputs at h
    injection h with h
    subst h
    exact ⟨rfl, fun k hk => absurd hk (by simp)⟩
  | cons t ts ih =>
    intro ts2 h
    unfold rewireInputs at h
    rcases h1 : rewireTensor lid iid fouts t with _ | t2
    · rw [h1] at h
      exact absurd h (by simp)
    rcases h2 : rewireInputs lid iid fouts ts with _ | tstail
    · rw [h1, h2] at h
      exact absurd h (by simp)
    rw [h1, h2] at h
    injection h with h
    subst h
    obtain ⟨hlen, hall⟩ := ih tstail h2
    refine ⟨by simp [hlen], ?_⟩
    intro k hk
    cases k with
    | zero => simpa using h1
    | succ k =>
      rw [List.getD_cons_succ, List.getD_cons_succ]
      exact hall k (by simpa using hk)

/-- Characterization of a successful `rewireOp`. -/
theorem rewireOp_char (lid iid : ℕ) (fouts : List FTensor) (op op2 : Oper)
    (h : rewireOp lid iid fouts op = some op2) :
    rewiredOk lid iid fouts op op2 := by
  unfold rewireOp at h
  rcases h1 : rewireInputs lid iid fouts op.inputs with _ | ins
  · rw [h1] at h
    exact absurd h (by simp)
  rw [h1] at h
  injection h with h
  subst h
  obtain ⟨hlen, hall⟩ := rewireInputs_char lid iid fouts op.inputs ins h1
  refine ⟨rfl, rfl, rfl, rfl, hlen, ?_⟩
  intro k hk
  exact rewireTensor_char lid iid fouts _ _ (hall k hk)

/-- Characterization of a successful `rebuildTail`: a pointwise
`rewireOp` relation against the remaining operators, with position `l`
removed when it lies in range. -/
theorem rebuildTail_char (lid iid : ℕ) (fused : Oper) (l : ℕ) :
    ∀ rem j tl, rebuildTail lid iid fused l j rem = some tl →
      (l < j → List.Forall₂
        (fun src dst => rewireOp lid iid fused.outputs src = some dst)
        rem tl) ∧
      (j ≤ l → l < j + rem.length → List.Forall₂
        (fun src dst => rewireOp lid iid fused.outputs src = some dst)
        (rem.eraseIdx (l - j)) tl) := by
  intro rem
  induction rem with
  | nil =>
    intro j tl h
    unfold rebuildTail at h
    injection h with h
    subst h
    refine ⟨fun _ => List.Forall₂.nil, fun h1 h2 => ?_⟩
    simp at h2
    omega
  | cons op rest ih =>
    intro j tl h
    unfold rebuildTail at h
    by_cases hj : j = l
    · rw [if_pos hj] at h
      refine ⟨fun hlt => absurd hlt (by omega), fun h1 h2 => ?_⟩
      have hrec := (ih (j + 1) tl h).1 (by omega)
      have hz : l - j = 0 := by omega
      rw [hz, List.eraseIdx_cons_zero]
      exact hrec
    · rw [if_neg hj] at h
      rcases h1 : rewireOp lid iid fused.outputs op with _ | op2
      · rw [h1] at h
        exact absurd h (by simp)
      rcases h2 : rebuildTail lid iid fused l (j + 1) rest with _ | tl2
      · rw [h1, h2] at h
        exact absurd h (by simp)
      rw [h1, h2] at h
      injection h with h
      subst h
      constructor
      · intro hlt
        exact List.Forall₂.cons h1 ((ih (j + 1) tl2 h2).1 (by omega))
      · intro hle hlt
        have hsucc : l - j = (l - j - 1) + 1 := by omega
        rw [hsucc, List.eraseIdx_cons_succ]
        have hrec := (ih (j + 1) tl2 h2).2 (by omega) (by simp at hlt; omega)
        have heq : l - (j + 1) = l - j - 1 := by omega
        rw [heq] at hrec
        exact List.Forall₂.cons h1 hrec

/-- Characterization of a successful `rebuild`. -/
theorem rebuild_char (ops : List Oper) (i l : ℕ) (fused : Oper)
    (r : List Oper) (hil : i < l) (hl : l < ops.length)
    (h : rebuild ops i l fused = some r) :
    ∃ tl, r = ops.take i ++ fused :: tl ∧
      List.Forall₂
        (fun src dst => rewireOp (opIdAt ops l) (opIdAt ops i) fused.outputs
          src = some dst)
        ((ops.drop (i + 1)).eraseIdx (l - (i + 1))) tl ∧
      tl.length + 1 = (ops.drop (i + 1)).length := by
  unfold rebuild at h
  rcases h1 : rebuildTail (opIdAt ops l) (opIdAt ops i) fused l (i + 1)
      (ops.drop (i + 1)) with _ | tl
  · rw [h1] at h
    exact absurd h (by simp)
  rw [h1] at h
  injection h with h
  subst h
  have hlen : (ops.drop (i + 1)).length = ops.length - (i + 1) := by simp
  have h2 := (rebuildTail_char _ _ fused l (ops.drop (i + 1)) (i + 1) tl
    h1).2 (by omega) (by omega)
  refine ⟨tl, rfl, h2, ?_⟩
  have h3 := h2.length_eq
  have h4 := List.length_eraseIdx_add_one
    (l := ops.drop (i + 1)) (i := l - (i + 1)) (by omega)
  omega

/-- Extraction of the successful candidate from the inner loop. -/
theorem tryCandidates_fused (mkF : Oper → Oper)
    (addF : Oper → Oper → Option Oper) (ops : List Oper) (lop : Oper)
    (l : ℕ) :
    ∀ cand r, tryCandidates mkF addF ops lop l cand = .fused r →
      ∃ i, i ∈ cand ∧ ∃ seed fusedOp,
        opView (ops.getD i default) = opView lop ∧
        seedFused mkF (ops.getD i default) = some seed ∧
        addF seed lop = some fusedOp ∧
        rebuild ops i l fusedOp = some r := by
  intro cand
  induction cand with
  | nil =>
    intro r h
    unfold tryCandidates at h
    exact absurd h (by simp)
  | cons i rest ih =>
    intro r h
    unfold tryCandidates at h
    by_cases hv : opView (ops.getD i default) = opView lop
    · rw [if_pos hv] at h
      split at h
      · obtain ⟨i2, hmem, hrest⟩ := ih r h
        exact ⟨i2, List.mem_cons_of_mem _ hmem, hrest⟩
      · rename_i seed hs
        split at h
        · obtain ⟨i2, hmem, hrest⟩ := ih r h
          exact ⟨i2, List.mem_cons_of_mem _ hmem, hrest⟩
        · rename_i fusedOp ha
          split at h
          · rename_i r2 hr
            have hr2 : r2 = r := by injection h
            subst hr2
            exact ⟨i, List.mem_cons_self _ _, seed, fusedOp, hv, hs, ha, hr⟩
          · exact absurd h (by simp)
    · rw [if_neg hv] at h
      obtain ⟨i2, hmem, hrest⟩ := ih r h
      exact ⟨i2, List.mem_cons_of_mem _ hmem, hrest⟩

/-- Extraction of the successful outer-loop position. -/
theorem tryPositions_fused (mkF : Oper → Oper)
    (addF : Oper → Oper → Option Oper) (ops : List Oper) :
    ∀ lcand r, tryPositions mkF addF ops lcand = .fused r →
      ∃ l, l ∈ lcand ∧
        (ops.getD l default).opType ≠ .OP_INPUT ∧
        (ops.getD l default).opType ≠ .OP_WEIGHT ∧
        isParallelOpType (ops.getD l default).opType = false ∧
        tryCandidates mkF addF ops (ops.getD l default) l
          (List.range' (computeStart ops l) (l - computeStart ops l)) =
          .fused r := by
  intro lcand
  induction lcand with
  | nil =>
    intro r h
    unfold tryPositions at h
    exact absurd h (by simp)
  | cons l rest ih =>
    intro r h
    unfold tryPositions at h
    by_cases hiw : (ops.getD l default).opType = .OP_INPUT ∨
        (ops.getD l default).opType = .OP_WEIGHT
    · rw [if_pos hiw] at h
      obtain ⟨l2, hmem, hrest⟩ := ih r h
      exact ⟨l2, List.mem_cons_of_mem _ hmem, hrest⟩
    rw [if_neg hiw] at h
    by_cases hp : isParallelOpType (ops.getD l default).opType = true
    · rw [if_pos hp] at h
      obtain ⟨l2, hmem, hrest⟩ := ih r h
      exact ⟨l2, List.mem_cons_of_mem _ hmem, hrest⟩
    rw [if_neg hp] at h
    rcases ht : tryCandidates mkF addF ops (ops.getD l default) l
        (List.range' (computeStart ops l) (l - computeStart ops l)) with
      _ | _ | r2
    · rw [ht] at h
      exact absurd h (by simp)
    · rw [ht] at h
      obtain ⟨l2, hmem, hrest⟩ := ih r h
      exact ⟨l2, List.mem_cons_of_mem _ hmem, hrest⟩
    · rw [ht] at h
      have : r2 = r := by injection h
      subst this
      push_neg at hiw
      exact ⟨l, List.mem_cons_self _ _, hiw.1, hiw.2,
        Bool.eq_false_iff.mpr hp, ht⟩

/-- Characterization of a successful seed check. -/
theorem seedFused_char (mkF : Oper → Oper) (iop seed : Oper)
    (h : seedFused mkF iop = some seed) :
    iop.opType = .OP_FUSED ∨
      (iop.hasInplaceOutput = false ∧ iop.opType ≠ .OP_INPUT ∧
       iop.opType ≠ .OP_WEIGHT ∧ isParallelOpType iop.opType = false) := by
  unfold seedFused at h
  by_cases h1 : iop.opType = .OP_FUSED
  · exact Or.inl h1
  rw [if_neg h1] at h
  by_cases h2 : iop.hasInplaceOutput = true
  · rw [if_pos h2] at h
    exact absurd h (by simp)
  rw [if_neg h2] at h
  by_cases h3 : iop.opType = .OP_INPUT ∨ iop.opType = .OP_WEIGHT
  · rw [if_pos h3] at h
    exact absurd h (by simp)
  rw [if_neg h3] at h
  by_cases h4 : isParallelOpType iop.opType = true
  · rw [if_pos h4] at h
    exact absurd h (by simp)
  rw [if_neg h4] at h
  push_neg at h3
  exact Or.inr ⟨Bool.eq_false_iff.mpr h2, h3.1, h3.2,
    Bool.eq_false_iff.mpr h4⟩

/-- C2: whenever `apply_fusion` succeeds, the rebuilt list has exactly one
operator fewer, and — with `i` the seed position and `l` the fused
position — it consists of the unchanged prefix, the fused operator, and the
remaining operators with every input owned by either member of the fused
pair rewritten to the fused output slot carrying the same region handle
(all other inputs and fields untouched).  Holds for every behaviour of the
external `FusedOp` constructor and `add_operator`. -/
theorem apply_fusion_success_spec (mkF : Oper → Oper)
    (addF : Oper → Oper → Option Oper) (ops : List Oper) (r : List Oper)
    (h : apply_fusion mkF addF ops = .fused r) :
    r.length + 1 = ops.length ∧
    ∃ i l fusedOp tl, i < l ∧ 1 ≤ l ∧ l + 1 < ops.length ∧
      r = ops.take i ++ fusedOp :: tl ∧
      List.Forall₂ (rewiredOk (opIdAt ops l) (opIdAt ops i) fusedOp.outputs)
        ((ops.drop (i + 1)).eraseIdx (l - (i + 1))) tl := by
  unfold apply_fusion at h
  obtain ⟨l, hlmem, hni, hnw, hnp, hc⟩ := tryPositions_fused mkF addF ops _ r h
  obtain ⟨i, himem, seed, fusedOp, hv, hs, ha, hr⟩ :=
    tryCandidates_fused mkF addF ops _ l _ r hc
  have hlb := List.mem_range'_1.mp hlmem
  have hib := List.mem_range'_1.mp himem
  have hil : i < l := by omega
  have hl1 : l + 1 < ops.length := by omega
  obtain ⟨tl, hreq, hfa, hlen⟩ := rebuild_char ops i l fusedOp r hil
    (by omega) hr
  have hfa2 : List.Forall₂
      (rewiredOk (opIdAt ops l) (opIdAt ops i) fusedOp.outputs)
      ((ops.drop (i + 1)).eraseIdx (l - (i + 1))) tl :=
    hfa.imp fun src dst hsrc => rewireOp_char _ _ _ src dst hsrc
  constructor
  · have hto : (ops.take i).length = i := by
      rw [List.length_take]
      omega
    have hdo : (ops.drop (i + 1)).length = ops.length - (i + 1) := by simp
    rw [hreq]
    simp only [List.length_append, List.length_cons, hto]
    omega
  · exact ⟨i, l, fusedOp, tl, hil, by omega, hl1, hreq, hfa2⟩

/-- Witness for `apply_fusion_success_spec`: the concrete three-operator
list `cexInplaceOps` with the spec-modelled fused-op collaborators. -/
theorem apply_fusion_success_spec_witness :
    apply_fusion mkFusedModel (addOpModel 4) cexInplaceOps =
      .fused [⟨0, .OP_FUSED, false, [],
                [⟨some 0, 10, 7⟩, ⟨some 1, 11, 7⟩]⟩,
              ⟨2, .OP_NOOP, false, [⟨some 1, 11, 7⟩],
                [⟨some 2, 12, 7⟩]⟩] ∧
    ([(⟨0, .OP_FUSED, false, [],
        [⟨some 0, 10, 7⟩, ⟨some 1, 11, 7⟩]⟩ : Oper),
      ⟨2, .OP_NOOP, false, [⟨some 1, 11, 7⟩],
        [⟨some 2, 12, 7⟩]⟩]).length + 1 = cexInplaceOps.length := by
  have hc : apply_fusion mkFusedModel (addOpModel 4) cexInplaceOps =
      .fused [⟨0, .OP_FUSED, false, [],
                [⟨some 0, 10, 7⟩, ⟨some 1, 11, 7⟩]⟩,
              ⟨2, .OP_NOOP, false, [⟨some 1, 11, 7⟩],
                [⟨some 2, 12, 7⟩]⟩] := by decide
  exact ⟨hc, (apply_fusion_success_spec _ _ _ _ hc).1⟩

/-- C4 counterexample: a successful fusion can incorporate an `O[l]` that
has an in-place output — the in-place check of `apply_fusion` is applied to
the seed `O[i]`, not to `O[l]`.  Here the only fusable position is
`l = 1`, whose operator is marked in-place, and the fusion succeeds,
exposing `O[1]`'s output from the fused operator. -/
theorem apply_fusion_inplace_l_counterexample :
    apply_fusion mkFusedModel (addOpModel 4) cexInplaceOps =
      .fused [⟨0, .OP_FUSED, false, [],
                [⟨some 0, 10, 7⟩, ⟨some 1, 11, 7⟩]⟩,
              ⟨2, .OP_NOOP, false, [⟨some 1, 11, 7⟩],
                [⟨some 2, 12, 7⟩]⟩] ∧
    (cexInplaceOps.getD 1 default).hasInplaceOutput = true ∧
    (cexInplaceOps.getD 1 default).outputs = [⟨some 1, 11, 7⟩] := by
  exact ⟨by decide, rfl, rfl⟩

/-- C4 (amended): whenever `apply_fusion` succeeds, the fused position
`O[l]` is neither an input, nor a weight, nor a parallel operator, and the
seed `O[i]` is either an already-fused operator or an operator that is not
in-place, not input, not weight and not parallel — the in-place exclusion
applies to the seed `O[i]`, not to `O[l]`. -/
theorem apply_fusion_excluded_kinds (mkF : Oper → Oper)
    (addF : Oper → Oper → Option Oper) (ops : List Oper) (r : List Oper)
    (h : apply_fusion mkF addF ops = .fused r) :
    ∃ i l seed fusedOp, i < l ∧
      (ops.getD l default).opType ≠ .OP_INPUT ∧
      (ops.getD l default).opType ≠ .OP_WEIGHT ∧
      isParallelOpType (ops.getD l default).opType = false ∧
      seedFused mkF (ops.getD i default) = some seed ∧
      addF seed (ops.getD l default) = some fusedOp ∧
      rebuild ops i l fusedOp = some r ∧
      ((ops.getD i default).opType = .OP_FUSED ∨
        ((ops.getD i default).hasInplaceOutput = false ∧
         (ops.getD i default).opType ≠ .OP_INPUT ∧
         (ops.getD i default).opType ≠ .OP_WEIGHT ∧
         isParallelOpType (ops.getD i default).opType = false)) := by
  unfold apply_fusion at h
  obtain ⟨l, hlmem, hni, hnw, hnp, hc⟩ := tryPositions_fused mkF addF ops _ r h
  obtain ⟨i, himem, seed, fusedOp, hv, hs, ha, hr⟩ :=
    tryCandidates_fused mkF addF ops _ l _ r hc
  have hib := List.mem_range'_1.mp himem
  exact ⟨i, l, seed, fusedOp, by omega, hni, hnw, hnp, hs, ha, hr,
    seedFused_char mkF _ seed hs⟩

/-- Witness for `apply_fusion_excluded_kinds`: the same concrete run. -/
theorem apply_fusion_excluded_kinds_witness :
    apply_fusion mkFusedModel (addOpModel 4) cexInplaceOps =
      .fused [⟨0, .OP_FUSED, false, [],
                [⟨some 0, 10, 7⟩, ⟨some 1, 11, 7⟩]⟩,
              ⟨2, .OP_NOOP, false, [⟨some 1, 11, 7⟩],
                [⟨some 2, 12, 7⟩]⟩] ∧
    (∃ i l seed fusedOp, i < l ∧
      (cexInplaceOps.getD l default).opType ≠ .OP_INPUT ∧
      (cexInplaceOps.getD l default).opType ≠ .OP_WEIGHT ∧
      isParallelOpType (cexInplaceOps.getD l default).opType = false ∧
      seedFused mkFusedModel (cexInplaceOps.getD i default) = some seed ∧
      addOpModel 4 seed (cexInplaceOps.getD l default) = some fusedOp ∧
      rebuild cexInplaceOps i l fusedOp =
        some [⟨0, .OP_FUSED, false, [],
                [⟨some 0, 10, 7⟩, ⟨some 1, 11, 7⟩]⟩,
              ⟨2, .OP_NOOP, false, [⟨some 1, 11, 7⟩],
                [⟨some 2, 12, 7⟩]⟩] ∧
      ((cexInplaceOps.getD i default).opType = .OP_FUSED ∨
        ((cexInplaceOps.getD i default).hasInplaceOutput = false ∧
         (cexInplaceOps.getD i default).opType ≠ .OP_INPUT ∧
         (cexInplaceOps.getD i default).opType ≠ .OP_WEIGHT ∧
         isParallelOpType (cexInplaceOps.getD i default).opType = false))) := by
  have hc : apply_fusion mkFusedModel (addOpModel 4) cexInplaceOps =
      .fused [⟨0, .OP_FUSED, false, [],
                [⟨some 0, 10, 7⟩, ⟨some 1, 11, 7⟩]⟩,
              ⟨2, .OP_NOOP, false, [⟨some 1, 11, 7⟩],
                [⟨some 2, 12, 7⟩]⟩] := by decide
  exact ⟨hc, apply_fusion_excluded_kinds _ _ _ _ hc⟩

/-- The tile extent is always at least 1. -/
theorem extPtsOf_pos (s n : ℕ) : 1 ≤ extPtsOf s n := by
  unfold extPtsOf
  omega

/-- For a non-degenerate dimension, the code's `(size − 1 + nparts) /
nparts` expression agrees with the ceiling formula
`(size + nparts − 1) / nparts`. -/
theorem extPtsOf_eq_ceil (s n : ℕ) (hs : 1 ≤ s) (hn : 1 ≤ n) :
    extPtsOf s n = (s + n - 1) / n := by
  unfold extPtsOf
  have harg : s - 1 + n = s + n - 1 := by omega
  rw [harg]
  have hq : 1 ≤ (s + n - 1) / n := by
    rw [Nat.one_le_div_iff (by omega)]
    omega
  omega

/-- The ceiling characterization: `nparts` tiles of the computed extent
cover at least `size` points but overshoot by less than one tile. -/
theorem extPtsOf_bounds (s n : ℕ) (hs : 1 ≤ s) (hn : 1 ≤ n) :
    s ≤ n * extPtsOf s n ∧ n * extPtsOf s n < s + n := by
  obtain ⟨t, rfl⟩ : ∃ t, s = t + 1 := ⟨s - 1, by omega⟩
  have hq : extPtsOf (t + 1) n = (t + n) / n := by
    unfold extPtsOf
    have harg : t + 1 - 1 + n = t + n := by omega
    rw [harg]
    have h1 : 1 ≤ (t + n) / n := by
      rw [Nat.one_le_div_iff (by omega)]
      omega
    omega
  rw [hq]
  have hdm := Nat.div_add_mod (t + n) n
  have hmod := Nat.mod_lt (t + n) (show 0 < n by omega)
  constructor
  · linarith [hdm, hmod]
  · linarith [hdm, Nat.zero_le ((t + n) % n)]

/-- A dimension with one part gets its full size as extent. -/
theorem extPtsOf_one (s : ℕ) (hs : 1 ≤ s) : extPtsOf s 1 = s := by
  unfold extPtsOf
  simp only [Nat.div_one]
  omega

/-- The offset sum collapses to a single product on a split dimension. -/
theorem tileOffset_of_idx (N T : ℕ) (dims : Fin N → PDim)
    (p : Fin T → ℕ) (i : Fin N) (j : Fin T)
    (h : (dims i).parallelIdx = (j.val : ℤ)) :
    tileOffset N T dims p i = extPts (dims i) * p j := by
  unfold tileOffset
  rw [Finset.sum_eq_single j]
  · unfold transformEntry
    rw [if_pos h]
  · intro b _ hb
    unfold transformEntry
    rw [if_neg, zero_mul]
    intro hc
    exact hb (Fin.ext (by omega))
  · intro hj
    exact absurd (Finset.mem_univ j) hj

/-- The offset is zero on an unsplit dimension. -/
theorem tileOffset_of_neg (N T : ℕ) (dims : Fin N → PDim)
    (p : Fin T → ℕ) (i : Fin N) (h : (dims i).parallelIdx < 0) :
    tileOffset N T dims p i = 0 := by
  unfold tileOffset
  apply Finset.sum_eq_zero
  intro j _
  unfold transformEntry
  rw [if_neg, zero_mul]
  intro hc
  rw [hc] at h
  exact absurd h (by omega)

/-- Aliased variant of `tileOffset_of_idx`, for non-aliased dimensions. -/
theorem tileOffsetA_of_idx (N T : ℕ) (dims : Fin N → PDim) (a : ℕ)
    (p : Fin T → ℕ) (i : Fin N) (j : Fin T)
    (h : (dims i).parallelIdx = (j.val : ℤ)) (hia : i.val ≠ a) :
    tileOffsetA N T dims a p i = extPtsA N dims a i * p j := by
  unfold tileOffsetA
  rw [Finset.sum_eq_single j]
  · unfold transformEntryA
    rw [if_pos ⟨h, hia⟩]
  · intro b _ hb
    unfold transformEntryA
    rw [if_neg, zero_mul]
    rintro ⟨hc, -⟩
    exact hb (Fin.ext (by omega))
  · intro hj
    exact absurd (Finset.mem_univ j) hj

/-- The aliased offset is zero on the aliased dimension and on unsplit
dimensions. -/
theorem tileOffsetA_zero (N T : ℕ) (dims : Fin N → PDim) (a : ℕ)
    (p : Fin T → ℕ) (i : Fin N)
    (h : (dims i).parallelIdx < 0 ∨ i.val = a) :
    tileOffsetA N T dims a p i = 0 := by
  unfold tileOffsetA
  apply Finset.sum_eq_zero
  intro j _
  unfold transformEntryA
  rw [if_neg, zero_mul]
  rintro ⟨hc, hia⟩
  rcases h with h | h
  · rw [hc] at h
    exact absurd h (by omega)
  · exact hia h

/-- Disjointness of the restriction partition built by
`map_tensor_with_dim2`: distinct colors get disjoint subregions, provided
every task axis either carries some dimension's `parallel_idx` or is
trivial. -/
theorem partition_disjoint (N T : ℕ) (dims : Fin N → PDim)
    (axisDeg : Fin T → ℕ)
    (h8 : ∀ j : Fin T,
      (∃ i, (dims i).parallelIdx = (j.val : ℤ)) ∨ axisDeg j = 1)
    (p q : Fin T → ℕ) (hp : inColorSpace T axisDeg p)
    (hq : inColorSpace T axisDeg q) (hpq : p ≠ q) (x : Fin N → ℕ)
    (hxp : inSubregion N T dims p x) (hxq : inSubregion N T dims q x) :
    False := by
  obtain ⟨j, hj⟩ := Function.ne_iff.mp hpq
  rcases h8 j with ⟨i, hij⟩ | hone
  · have hbp := hxp.2 i
    have hbq := hxq.2 i
    rw [tileOffset_of_idx N T dims p i j hij] at hbp
    rw [tileOffset_of_idx N T dims q i j hij] at hbq
    have hext : 1 ≤ extPts (dims i) := extPtsOf_pos _ _
    rcases Nat.lt_or_ge (p j) (q j) with hlt | hge
    · have hmul : extPts (dims i) * (p j + 1) ≤ extPts (dims i) * q j :=
        Nat.mul_le_mul le_rfl (by omega)
      rw [Nat.mul_succ] at hmul
      linarith [hbp.1, hbp.2, hbq.1, hbq.2]
    rcases Nat.lt_or_ge (q j) (p j) with hlt2 | hge2
    · have hmul : extPts (dims i) * (q j + 1) ≤ extPts (dims i) * p j :=
        Nat.mul_le_mul le_rfl (by omega)
      rw [Nat.mul_succ] at hmul
      linarith [hbp.1, hbp.2, hbq.1, hbq.2]
    · exact hj (by omega)
  · have := hp j
    have := hq j
    rw [hone] at *
    exact hj (by omega)

/-- Completeness of the restriction partition built by
`map_tensor_with_dim2`: every point of the tensor rect lies in the
subregion of some color of the task space. -/
theorem partition_complete (N T : ℕ) (dims : Fin N → PDim)
    (axisDeg : Fin T → ℕ)
    (h1 : ∀ i, 1 ≤ (dims i).size)
    (h2 : ∀ i, 1 ≤ (dims i).degree)
    (h3 : ∀ i, (dims i).parallelIdx < (T : ℤ))
    (h4 : ∀ i, 1 < (dims i).degree → 0 ≤ (dims i).parallelIdx)
    (h5 : ∀ i i2, 0 ≤ (dims i).parallelIdx →
      (dims i).parallelIdx = (dims i2).parallelIdx → i = i2)
    (h6 : ∀ j, 1 ≤ axisDeg j)
    (h7 : ∀ i (j : Fin T), (dims i).parallelIdx = (j.val : ℤ) →
      axisDeg j = (dims i).degree)
    (x : Fin N → ℕ) (hx : ∀ i, x i < (dims i).size) :
    ∃ p, inColorSpace T axisDeg p ∧ inSubregion N T dims p x := by
  classical
  set p : Fin T → ℕ := fun j =>
    if h : ∃ i, (dims i).parallelIdx = (j.val : ℤ)
    then x h.choose / extPts (dims h.choose) else 0 with hpdef
  have hpj : ∀ (j : Fin T) (h : ∃ i2, (dims i2).parallelIdx = (j.val : ℤ)),
      p j = x h.choose / extPts (dims h.choose) := by
    intro j h
    simp only [hpdef]
    rw [dif_pos h]
  have hpj0 : ∀ (j : Fin T),
      ¬(∃ i2, (dims i2).parallelIdx = (j.val : ℤ)) → p j = 0 := by
    intro j h
    simp only [hpdef]
    rw [dif_neg h]
  refine ⟨p, ?_, hx, ?_⟩
  · intro j
    by_cases hj : ∃ i2, (dims i2).parallelIdx = (j.val : ℤ)
    · rw [hpj j hj]
      have hspec := hj.choose_spec
      have hdeg : axisDeg j = (dims hj.choose).degree := h7 _ j hspec
      have hEpos : 0 < extPts (dims hj.choose) := extPtsOf_pos _ _
      rw [hdeg, Nat.div_lt_iff_lt_mul hEpos]
      calc x hj.choose < (dims hj.choose).size := hx _
        _ ≤ (dims hj.choose).degree * extPts (dims hj.choose) :=
          (extPtsOf_bounds _ _ (h1 _) (h2 _)).1
    · rw [hpj0 j hj]
      have := h6 j
      omega
  · intro i
    by_cases hneg : (dims i).parallelIdx < 0
    · rw [tileOffset_of_neg N T dims p i hneg]
      have hdeg1 : (dims i).degree = 1 := by
        by_contra hne
        have := h4 i (by have := h2 i; omega)
        omega
      have hE : extPts (dims i) = (dims i).size := by
        unfold extPts
        rw [hdeg1]
        exact extPtsOf_one _ (h1 i)
      rw [hE]
      have := hx i
      omega
    · push_neg at hneg
      have hjT : (dims i).parallelIdx.toNat < T := by
        have := h3 i
        omega
      have hij : (dims i).parallelIdx =
          ((⟨(dims i).parallelIdx.toNat, hjT⟩ : Fin T).val : ℤ) := by
        simp
        omega
      have hex : ∃ i2, (dims i2).parallelIdx =
          ((⟨(dims i).parallelIdx.toNat, hjT⟩ : Fin T).val : ℤ) := ⟨i, hij⟩
      rw [tileOffset_of_idx N T dims p i ⟨(dims i).parallelIdx.toNat, hjT⟩
        hij]
      have hchoose : hex.choose = i := by
        apply h5 hex.choose i
        · rw [hex.choose_spec]
          simp
        · rw [hex.choose_spec, ← hij]
      have hpj2 : p ⟨(dims i).parallelIdx.toNat, hjT⟩ =
          x i / extPts (dims i) := by
        rw [hpj _ hex, hchoose]
      rw [hpj2]
      have hEpos : 1 ≤ extPts (dims i) := extPtsOf_pos _ _
      have hdm := Nat.div_add_mod (x i) (extPts (dims i))
      have hm := Nat.mod_lt (x i) (show 0 < extPts (dims i) by omega)
      constructor
      · calc extPts (dims i) * (x i / extPts (dims i))
            = x i / extPts (dims i) * extPts (dims i) := Nat.mul_comm _ _
          _ ≤ x i := Nat.div_mul_le_self _ _
      · linarith

/-- Completeness of the aliased partition built by
`create_aliased_partition_with_dim2`: the aliased dimension contributes one
full-extent part, so every point is still covered. -/
theorem partition_complete_aliased (N T : ℕ) (dims : Fin N → PDim)
    (axisDeg : Fin T → ℕ) (a : ℕ)
    (h1 : ∀ i, 1 ≤ (dims i).size)
    (h2 : ∀ i, 1 ≤ (dims i).degree)
    (h3 : ∀ i, (dims i).parallelIdx < (T : ℤ))
    (h4 : ∀ i, 1 < (dims i).degree → 0 ≤ (dims i).parallelIdx)
    (h5 : ∀ i i2, 0 ≤ (dims i).parallelIdx →
      (dims i).parallelIdx = (dims i2).parallelIdx → i = i2)
    (h6 : ∀ j, 1 ≤ axisDeg j)
    (h7 : ∀ i (j : Fin T), (dims i).parallelIdx = (j.val : ℤ) →
      axisDeg j = (dims i).degree)
    (x : Fin N → ℕ) (hx : ∀ i, x i < (dims i).size) :
    ∃ p, inColorSpace T axisDeg p ∧ inSubregionA N T dims a p x := by
  classical
  set p : Fin T → ℕ := fun j =>
    if h : ∃ i, (dims i).parallelIdx = (j.val : ℤ) ∧ i.val ≠ a
    then x h.choose / extPtsA N dims a h.choose else 0 with hpdef
  have hpj : ∀ (j : Fin T)
      (h : ∃ i2, (dims i2).parallelIdx = (j.val : ℤ) ∧ i2.val ≠ a),
      p j = x h.choose / extPtsA N dims a h.choose := by
    intro j h
    simp only [hpdef]
    rw [dif_pos h]
  have hpj0 : ∀ (j : Fin T),
      ¬(∃ i2, (dims i2).parallelIdx = (j.val : ℤ) ∧ i2.val ≠ a) →
      p j = 0 := by
    intro j h
    simp only [hpdef]
    rw [dif_neg h]
  have hextA : ∀ i, i.val ≠ a → extPtsA N dims a i = extPts (dims i) := by
    intro i hi
    unfold extPtsA extPts
    rw [if_neg hi]
  refine ⟨p, ?_, hx, ?_⟩
  · intro j
    by_cases hj : ∃ i2, (dims i2).parallelIdx = (j.val : ℤ) ∧ i2.val ≠ a
    · rw [hpj j hj]
      have hspec := hj.choose_spec
      have hdeg : axisDeg j = (dims hj.choose).degree := h7 _ j hspec.1
      have hEpos : 0 < extPts (dims hj.choose) := extPtsOf_pos _ _
      rw [hextA _ hspec.2]
      rw [hdeg, Nat.div_lt_iff_lt_mul hEpos]
      calc x hj.choose < (dims hj.choose).size := hx _
        _ ≤ (dims hj.choose).degree * extPts (dims hj.choose) :=
          (extPtsOf_bounds _ _ (h1 _) (h2 _)).1
    · rw [hpj0 j hj]
      have := h6 j
      omega
  · intro i
    by_cases hia : i.val = a
    · rw [tileOffsetA_zero N T dims a p i (Or.inr hia)]
      have hE : extPtsA N dims a i = (dims i).size := by
        unfold extPtsA
        rw [if_pos hia]
        exact extPtsOf_one _ (h1 i)
      rw [hE]
      have := hx i
      omega
    · by_cases hneg : (dims i).parallelIdx < 0
      · rw [tileOffsetA_zero N T dims a p i (Or.inl hneg)]
        have hdeg1 : (dims i).degree = 1 := by
          by_contra hne
          have := h4 i (by have := h2 i; omega)
          omega
        have hE : extPtsA N dims a i = (dims i).size := by
          rw [hextA i hia]
          unfold extPts
          rw [hdeg1]
          exact extPtsOf_one _ (h1 i)
        rw [hE]
        have := hx i
        omega
      · push_neg at hneg
        have hjT : (dims i).parallelIdx.toNat < T := by
          have := h3 i
          omega
        have hij : (dims i).parallelIdx =
            ((⟨(dims i).parallelIdx.toNat, hjT⟩ : Fin T).val : ℤ) := by
          simp
          omega
        have hex : ∃ i2, (dims i2).parallelIdx =
            ((⟨(dims i).parallelIdx.toNat, hjT⟩ : Fin T).val : ℤ) ∧
            i2.val ≠ a := ⟨i, hij, hia⟩
        rw [tileOffsetA_of_idx N T dims a p i
          ⟨(dims i).parallelIdx.toNat, hjT⟩ hij hia]
        have hchoose : hex.choose = i := by
          apply h5 hex.choose i
          · rw [hex.choose_spec.1]
            simp
          · rw [hex.choose_spec.1, ← hij]
        have hpj2 : p ⟨(dims i).parallelIdx.toNat, hjT⟩ =
            x i / extPtsA N dims a i := by
          rw [hpj _ hex, hchoose]
        rw [hpj2]
        have hEpos : 1 ≤ extPtsA N dims a i := extPtsOf_pos _ _
        have hdm := Nat.div_add_mod (x i) (extPtsA N dims a i)
        have hm := Nat.mod_lt (x i)
          (show 0 < extPtsA N dims a i by omega)
        constructor
        · calc extPtsA N dims a i * (x i / extPtsA N dims a i)
              = x i / extPtsA N dims a i * extPtsA N dims a i :=
                Nat.mul_comm _ _
            _ ≤ x i := Nat.div_mul_le_self _ _
        · linarith

/-- C5: for every mapped tensor the per-dimension partition extent is
`ceil(size_i / degree_i)`, the transform entry is that extent exactly when
`parallel_idx_i = j` and 0 otherwise, and the restriction partition is
disjoint and complete; the aliased variant zeroes the aliased dimension's
transform row, gives it a single full-size part, and is complete.  The
hypotheses are the well-formedness conditions of the parallel-dim
descriptor and of the task space built by `get_or_create_task_is`. -/
theorem map_tensor_partition_spec (N T : ℕ) (dims : Fin N → PDim)
    (axisDeg : Fin T → ℕ) (a : ℕ)
    (h1 : ∀ i, 1 ≤ (dims i).size)
    (h2 : ∀ i, 1 ≤ (dims i).degree)
    (h3 : ∀ i, (dims i).parallelIdx < (T : ℤ))
    (h4 : ∀ i, 1 < (dims i).degree → 0 ≤ (dims i).parallelIdx)
    (h5 : ∀ i i2, 0 ≤ (dims i).parallelIdx →
      (dims i).parallelIdx = (dims i2).parallelIdx → i = i2)
    (h6 : ∀ j, 1 ≤ axisDeg j)
    (h7 : ∀ i (j : Fin T), (dims i).parallelIdx = (j.val : ℤ) →
      axisDeg j = (dims i).degree)
    (h8 : ∀ j : Fin T,
      (∃ i, (dims i).parallelIdx = (j.val : ℤ)) ∨ axisDeg j = 1) :
    (∀ i : Fin N,
      extPts (dims i) =
        ((dims i).size + (dims i).degree - 1) / (dims i).degree ∧
      (dims i).size ≤ (dims i).degree * extPts (dims i) ∧
      (dims i).degree * extPts (dims i) <
        (dims i).size + (dims i).degree) ∧
    (∀ (i : Fin N) (j : ℕ),
      ((dims i).parallelIdx = (j : ℤ) →
        transformEntry (dims i) j = extPts (dims i)) ∧
      ((dims i).parallelIdx ≠ (j : ℤ) → transformEntry (dims i) j = 0)) ∧
    (∀ p q x, inColorSpace T axisDeg p → inColorSpace T axisDeg q →
      p ≠ q → inSubregion N T dims p x → inSubregion N T dims q x →
      False) ∧
    (∀ x, (∀ i, x i < (dims i).size) →
      ∃ p, inColorSpace T axisDeg p ∧ inSubregion N T dims p x) ∧
    (∀ i : Fin N, i.val = a →
      (∀ j : ℕ, transformEntryA N dims a i j = 0) ∧
      extPtsA N dims a i = (dims i).size) ∧
    (∀ x, (∀ i, x i < (dims i).size) →
      ∃ p, inColorSpace T axisDeg p ∧ inSubregionA N T dims a p x) := by
  refine ⟨?_, ?_, ?_, ?_, ?_, ?_⟩
  · intro i
    exact ⟨extPtsOf_eq_ceil _ _ (h1 i) (h2 i),
      (extPtsOf_bounds _ _ (h1 i) (h2 i)).1,
      (extPtsOf_bounds _ _ (h1 i) (h2 i)).2⟩
  · intro i j
    constructor
    · intro h
      unfold transformEntry
      rw [if_pos h]
    · intro h
      unfold transformEntry
      rw [if_neg h]
  · exact fun p q x hp hq hpq hxp hxq =>
      partition_disjoint N T dims axisDeg h8 p q hp hq hpq x hxp hxq
  · exact partition_complete N T dims axisDeg h1 h2 h3 h4 h5 h6 h7
  · intro i hia
    constructor
    · intro j
      unfold transformEntryA
      rw [if_neg]
      rintro ⟨-, hc⟩
      exact hc hia
    · unfold extPtsA
      rw [if_pos hia]
      exact extPtsOf_one _ (h1 i)
  · exact partition_complete_aliased N T dims axisDeg a h1 h2 h3 h4 h5 h6 h7

/-- Witness for `map_tensor_partition_spec`: scenario S6 — dims
`[(16, 4, idx 0), (8, 2, idx 1)]` on a 4×2 task space, aliased dim 0. -/
theorem map_tensor_partition_spec_witness :
    (∀ i : Fin 2, 1 ≤ (s6_dims i).size) ∧
    (∀ x, (∀ i, x i < (s6_dims i).size) →
      ∃ p, inColorSpace 2 s6_axisDeg p ∧ inSubregion 2 2 s6_dims p x) := by
  have h := map_tensor_partition_spec 2 2 s6_dims s6_axisDeg 0
    (by decide) (by decide) (by decide) (by decide) (by decide) (by decide)
    (by decide) (by decide)
  exact ⟨by decide, h.2.2.2.1⟩

/-- Witness for `ff_rewrite_default_frame`: three operators, draw `r = 1`
(non-terminal), fresh config 7. -/
theorem ff_rewrite_default_frame_witness :
    ff_rewrite_default 3 (fun _ => (0 : ℕ)) 1 7 2 = 0 ∧
    ff_rewrite_default 3 (fun _ => (0 : ℕ)) 1 7 0 = 0 ∧
    ff_rewrite_default 3 (fun _ => (0 : ℕ)) 1 7 1 = 7 := by
  obtain ⟨h1, h2, h3⟩ := ff_rewrite_default_frame 3 (fun _ => (0 : ℕ)) 1 7
  exact ⟨h1, h2 0 (by decide), h3 (by decide)⟩

end FlexFlow
